import Mathlib

/-!
Shallow embedding of the retrieval core of the DevOps RAG agent:
the recursive character splitter of src/utils/textProcessor.ts and the
lexical retriever of utils/search.ts.  JS strings are modelled as
List Char, the numeric parameters of the splitter as Int (they are JS
numbers that may be negative at invalid call sites), and the one loop of
the source that can diverge (the hard-split fallback, whose step is
chunkSize - chunkOverlap) as a fuelled computation returning Option.
All other code paths are structurally recursive and total.
-/

namespace RagCore

/-- JS String.prototype.slice with the standard clamping of negative and
out-of-range indices. -/
def jsSlice (s : List Char) (a b : Int) : List Char :=
  let len : Int := s.length
  let a2 : Int := if a < 0 then max (len + a) 0 else min a len
  let b2 : Int := if b < 0 then max (len + b) 0 else min b len
  (s.take b2.toNat).drop a2.toNat

/-- The hard-split fallback loop of splitText:
for (let i = 0; i < text.length; i += chunkSize - chunkOverlap)
  push(text.slice(i, i + chunkSize)).
The JS loop does not terminate when the step is ≤ 0, hence the fuel;
one unit of fuel is spent per iteration of the loop body. -/
def hardSplitF (cs step : Int) : Nat → Int → List Char → Option (List (List Char))
  | 0, i, t => if i < (t.length : Int) then none else some []
  | f + 1, i, t =>
      if i < (t.length : Int) then
        (hardSplitF cs step f (i + step) t).map (fun rest => jsSlice t i (i + cs) :: rest)
      else some []

/-- Scanning loop of JS String.prototype.split with a string separator:
cur is the segment accumulated since the last separator occurrence.  The
recursion is driven structurally by a fuel that jsSplit sets to the length
of the scanned string; every step consumes at least one character, so the
fuel-exhausted arm is only ever reached with nothing left to scan and
agrees with the end-of-string arm. -/
def goSplit (sep : List Char) : Nat → List Char → List Char → List (List Char)
  | 0, cur, s => [cur ++ s]
  | _ + 1, cur, [] => [cur]
  | fuel + 1, cur, c :: rest =>
      if sep ≠ [] ∧ sep.isPrefixOf (c :: rest) then
        cur :: goSplit sep fuel [] ((c :: rest).drop sep.length)
      else
        goSplit sep fuel (cur ++ [c]) rest

/-- JS String.prototype.split with a (non-empty, in all uses) separator. -/
def jsSplit (sep t : List Char) : List (List Char) :=
  goSplit sep t.length [] t

/-- potentialChunk of the greedy reassembly loop:
currentChunk.length > 0 ? currentChunk + separator + split : split. -/
def potentialChunk (sep cur s : List Char) : List Char :=
  if cur.length > 0 then cur ++ sep ++ s else s

/-- The greedy reassembly loop of splitText: extend currentChunk by the next
split (joined by the separator) while the joined length stays strictly below
chunkSize, otherwise flush the nonempty accumulator and restart from the
current split; the final nonempty accumulator is flushed at the end. -/
def mergeGo (cs : Int) (sep : List Char) (cur : List Char) : List (List Char) → List (List Char)
  | [] => if cur = [] then [] else [cur]
  | s :: rest =>
      if ((potentialChunk sep cur s).length : Int) < cs then
        mergeGo cs sep (potentialChunk sep cur s) rest
      else
        if cur = [] then mergeGo cs sep s rest
        else cur :: mergeGo cs sep s rest

/-- goodSplits of splitText: greedy reassembly starting from an empty
accumulator. -/
def mergeSplits (cs : Int) (sep : List Char) (splits : List (List Char)) : List (List Char) :=
  mergeGo cs sep [] splits

/-- Sequence the per-chunk results of the processedSplits loop and
concatenate them in order (processedSplits = processedSplits.concat(...)). -/
def combineResults : List (Option (List (List Char))) → Option (List (List Char))
  | [] => some []
  | o :: rest => do
      let x ← o
      let xs ← combineResults rest
      pure (x ++ xs)

/-- The fixed separator hierarchy of recursiveCharacterSplit. -/
def separators : List (List Char) := [['\n', '\n'], ['\n'], [' '], []]

/-- splitText of textProcessor.ts.  The separator hierarchy is passed as the
list of separators still to be tried (separatorIndex i of the source
corresponds to separators.drop i, and the fallback branch guarded by
separatorIndex >= separators.length to the empty list); hf is the fuel
threaded to the hard-split fallback. -/
def splitTextF (cs co : Int) (hf : Nat) : List (List Char) → List Char → Option (List (List Char))
  | [], t =>
      if (t.length : Int) ≤ cs then some [t]
      else hardSplitF cs (cs - co) hf 0 t
  | sep :: rest, t =>
      if (t.length : Int) ≤ cs then some [t]
      else
        let splits := if sep = [] then t.map (fun c => [c]) else jsSplit sep t
        let goodSplits := mergeSplits cs sep splits
        combineResults (goodSplits.map (fun chunk =>
          if (chunk.length : Int) > cs then splitTextF cs co hf rest chunk
          else some [chunk]))

/-- recursiveCharacterSplit of textProcessor.ts (hf is the fuel for the
hard-split fallback; the defaults of the source are chunkSize 500,
chunkOverlap 50). -/
def recursiveCharacterSplit (hf : Nat) (text : List Char) (chunkSize chunkOverlap : Int) :
    Option (List (List Char)) :=
  splitTextF chunkSize chunkOverlap hf separators text

/-- The whitespace class shared by JS String.prototype.trim and the regex
class \s (the ASCII part, which is all that the separators and the claims
exercise). -/
def jsIsSpace (c : Char) : Bool :=
  c = ' ' || c = '\t' || c = '\n' || c = '\r' || c = '\x0b' || c = '\x0c'

/-- JS String.prototype.trim: drop leading and trailing whitespace. -/
def jsTrim (s : List Char) : List Char :=
  ((s.dropWhile jsIsSpace).reverse.dropWhile jsIsSpace).reverse

/-- DocumentChunk of types.ts as used by textProcessor.ts and search.ts. -/
structure DocumentChunk where
  id : String
  sourceId : String
  content : List Char
  startIndex : Nat
  endIndex : Nat
deriving DecidableEq

/-- rawChunks.map((text, idx) => ({ id: docId-chunk-idx, sourceId: docId,
content: text.trim(), metadata: { startIndex: idx, endIndex: idx + 1 } }))
of createChunksFromDoc, with the running index made explicit. -/
def chunksFromRaw (docId : String) : Nat → List (List Char) → List DocumentChunk
  | _, [] => []
  | idx, t :: rest =>
      { id := docId ++ "-chunk-" ++ toString idx
        sourceId := docId
        content := jsTrim t
        startIndex := idx
        endIndex := idx + 1 } :: chunksFromRaw docId (idx + 1) rest

/-- createChunksFromDoc of textProcessor.ts: split with the default
configuration (500, 50) and build the DocumentChunk records.  Fuel 0 is
passed to the hard-split fallback; the fallback is unreachable for any
chunkSize ≥ 1 (proved below), so no fuel is ever consumed. -/
def createChunksFromDoc (docId : String) (content : List Char) : Option (List DocumentChunk) :=
  (recursiveCharacterSplit 0 content 500 50).map (chunksFromRaw docId 0)

/-- The regex class \w: [A-Za-z0-9_]. -/
def jsIsWordChar (c : Char) : Bool :=
  c.isAlphanum || c = '_'

/-- Scanning loop of String.prototype.split(/\s+/): a maximal whitespace run
ends the current segment (so a leading run yields an empty first segment and
a trailing run an empty last segment).  Fuelled structurally like goSplit,
with the same always-sufficient fuel discipline. -/
def splitWsGo : Nat → List Char → List Char → List (List Char)
  | 0, cur, s => [cur ++ s]
  | _ + 1, cur, [] => [cur]
  | fuel + 1, cur, c :: rest =>
      if jsIsSpace c then cur :: splitWsGo fuel [] (rest.dropWhile jsIsSpace)
      else splitWsGo fuel (cur ++ [c]) rest

/-- String.prototype.split(/\s+/). -/
def splitWs (t : List Char) : List (List Char) :=
  splitWsGo t.length [] t

/-- new Set(list): keep the first occurrence of each element, in order;
seen is the set of elements already emitted. -/
def dedupGo (seen : List (List Char)) : List (List Char) → List (List Char)
  | [] => []
  | x :: rest =>
      if seen.contains x then dedupGo seen rest
      else x :: dedupGo (x :: seen) rest

/-- tokenize of search.ts: lower-case, strip characters that are neither
word characters nor whitespace, split on whitespace runs, drop tokens of
length ≤ 2, and collect into a Set. -/
def tokenize (text : List Char) : List (List Char) :=
  dedupGo []
    (((splitWs ((text.map Char.toLower).filter
        (fun c => jsIsWordChar c || jsIsSpace c)))).filter (fun w => w.length > 2))

/-- calculateScore of search.ts, over exact rationals: the token sets are
represented by the duplicate-free token lists produced by tokenize, so
Set.size is list length and Set.has is list membership; x || 1 on the
denominator substitutes 1 exactly when the denominator is 0. -/
def calculateScore (queryTokens chunkTokens : List (List Char)) : Rat :=
  let overlap := (queryTokens.filter (fun qt => chunkTokens.contains qt)).length
  let denom := queryTokens.length + chunkTokens.length - overlap
  (overlap : Rat) / (if denom = 0 then 1 else (denom : Rat))

/-- The score the retriever assigns to one chunk for a query. -/
def chunkScore (query : List Char) (chunk : DocumentChunk) : Rat :=
  calculateScore (tokenize query) (tokenize chunk.content)

/-- allChunks.map(chunk => ({ chunk, score })) of retrieveRelevantChunks. -/
def scoredList (query : List Char) (allChunks : List DocumentChunk) :
    List (DocumentChunk × Rat) :=
  allChunks.map (fun chunk => (chunk, chunkScore query chunk))

/-- One insertion step of the stable descending sort: the new element is
placed before the first already placed element whose score is not larger.
This realizes Array.prototype.sort (stable per ES2019) with the comparator
(a, b) => b.score - a.score. -/
def insertScored (x : DocumentChunk × Rat) : List (DocumentChunk × Rat) → List (DocumentChunk × Rat)
  | [] => [x]
  | y :: rest => if y.2 ≤ x.2 then x :: y :: rest else y :: insertScored x rest

/-- Stable sort by score descending (insertion sort, which is extensionally
the unique stable descending arrangement). -/
def sortScored : List (DocumentChunk × Rat) → List (DocumentChunk × Rat)
  | [] => []
  | x :: rest => insertScored x (sortScored rest)

/-- retrieveRelevantChunks of search.ts. -/
def retrieveRelevantChunks (query : List Char) (allChunks : List DocumentChunk) (topK : Nat) :
    List DocumentChunk :=
  if allChunks.length = 0 then []
  else ((sortScored (scoredList query allChunks)).take topK).map Prod.fst

/-- Spec-side scoring function, written from the specification text: for the
query token set Q and chunk token set C (as finite sets), the score is
|Q ∩ C| / (|Q| + |C| - |Q ∩ C|), with divisor 1 substituted when the
denominator would be zero.  Compared with calculateScore in claim C5. -/
def scoreSpec (query chunk : List Char) : Rat :=
  let q : Finset (List Char) := (tokenize query).toFinset
  let c : Finset (List Char) := (tokenize chunk).toFinset
  let inter := (q ∩ c).card
  let denom := q.card + c.card - inter
  (inter : Rat) / (if denom = 0 then 1 else (denom : Rat))

/-- A separator hierarchy that ends with the character-level separator "".
The hierarchy of the source satisfies this, and it is what makes the
hard-split fallback unreachable for chunkSize ≥ 1. -/
def endsEmpty : List (List Char) → Prop
  | [] => False
  | [s] => s = []
  | _ :: s :: rest => endsEmpty (s :: rest)

/-- Concatenation with a separator between adjacent elements
(Array.prototype.join); used to state that splitting is inverted by
joining. -/
def joinSep (sep : List Char) : List (List Char) → List Char
  | [] => []
  | [x] => x
  | x :: y :: rest => x ++ sep ++ joinSep sep (y :: rest)

/-! Lemmas about the splitter. -/

theorem combineResults_map_some (l : List (List Char)) :
    combineResults (l.map (fun c => some [c])) = some l := by
  induction l with
  | nil => rfl
  | cons x rest ih => simp [combineResults, ih]

theorem combineResults_isSome (l : List (Option (List (List Char))))
    (h : ∀ o ∈ l, o.isSome) : (combineResults l).isSome := by
  induction l with
  | nil => rfl
  | cons o rest ih =>
      obtain ⟨x, hx⟩ := Option.isSome_iff_exists.mp (h o (by simp))
      obtain ⟨xs, hxs⟩ := Option.isSome_iff_exists.mp (ih fun o2 ho2 => h o2 (by simp [ho2]))
      simp [combineResults, hx, hxs]

theorem combineResults_mem (x : List Char) :
    ∀ (l : List (Option (List (List Char)))) (r : List (List Char)),
    combineResults l = some r → x ∈ r → ∃ xs, some xs ∈ l ∧ x ∈ xs := by
  intro l
  induction l with
  | nil =>
      intro r h hx
      simp [combineResults] at h
      subst h
      cases hx
  | cons o rest ih =>
      intro r h hx
      cases o with
      | none => simp [combineResults] at h
      | some a =>
          cases hcr : combineResults rest with
          | none => simp [combineResults, hcr] at h
          | some rs =>
              simp [combineResults, hcr] at h
              subst h
              rcases List.mem_append.mp hx with h1 | h2
              · exact ⟨a, by simp, h1⟩
              · obtain ⟨xs, h3, h4⟩ := ih rs hcr h2
                exact ⟨xs, by simp [h3], h4⟩

theorem combineResults_count (ch : Char) (f : List Char → Option (List (List Char))) :
    ∀ (good : List (List Char)) (r : List (List Char)),
    combineResults (good.map f) = some r →
    (∀ c ∈ good, ∀ rc, f c = some rc → c.count ch ≤ rc.flatten.count ch) →
    good.flatten.count ch ≤ r.flatten.count ch := by
  intro good
  induction good with
  | nil =>
      intro r h _
      simp [combineResults] at h
      subst h
      simp
  | cons c rest ih =>
      intro r h hf
      cases hfc : f c with
      | none => simp [combineResults, hfc] at h
      | some rc =>
          cases hcr : combineResults (rest.map f) with
          | none => simp [combineResults, hfc, hcr] at h
          | some rs =>
              have h1 := hf c (by simp) rc hfc
              have h2 := ih rs hcr (fun c2 hc2 => hf c2 (by simp [hc2]))
              simp [combineResults, hfc, hcr] at h
              subst h
              simp only [List.flatten_cons, List.flatten_append, List.count_append]
              omega

theorem potentialChunk_nilcur (sep s : List Char) : potentialChunk sep [] s = s := by
  simp [potentialChunk]

theorem potentialChunk_nilsep (cur s : List Char) : potentialChunk [] cur s = cur ++ s := by
  unfold potentialChunk
  split
  · simp
  · rename_i h
    have hc : cur = [] := List.eq_nil_of_length_eq_zero (by omega)
    simp [hc]

theorem potentialChunk_count (sep : List Char) (ch : Char) (hch : ch ∉ sep)
    (cur s : List Char) :
    (potentialChunk sep cur s).count ch = cur.count ch + s.count ch := by
  unfold potentialChunk
  split
  · simp [List.count_append, List.count_eq_zero.mpr hch]
  · rename_i h
    have hc : cur = [] := List.eq_nil_of_length_eq_zero (by omega)
    simp [hc]

theorem mergeGo_bound (cs : Int) (sep : List Char) :
    ∀ (splits : List (List Char)) (cur : List Char),
    (∀ s ∈ splits, (s.length : Int) ≤ cs) → (cur.length : Int) ≤ cs →
    ∀ c ∈ mergeGo cs sep cur splits, (c.length : Int) ≤ cs := by
  intro splits
  induction splits with
  | nil =>
      intro cur _ hcur c hc
      simp only [mergeGo] at hc
      split at hc
      · cases hc
      · rw [List.mem_singleton] at hc
        subst hc
        exact hcur
  | cons s rest ih =>
      intro cur hs hcur c hc
      simp only [mergeGo] at hc
      split at hc
      · rename_i hlt
        exact ih _ (fun s2 hs2 => hs s2 (by simp [hs2])) (by omega) c hc
      · split at hc
        · exact ih _ (fun s2 hs2 => hs s2 (by simp [hs2])) (hs s (by simp)) c hc
        · rcases List.mem_cons.mp hc with h1 | h1
          · subst h1; exact hcur
          · exact ih _ (fun s2 hs2 => hs s2 (by simp [hs2])) (hs s (by simp)) c h1

theorem mergeGo_flatten_nilsep (cs : Int) :
    ∀ (splits : List (List Char)) (cur : List Char),
    (mergeGo cs [] cur splits).flatten = cur ++ splits.flatten := by
  intro splits
  induction splits with
  | nil =>
      intro cur
      simp only [mergeGo]
      split
      · rename_i h; subst h; simp
      · simp
  | cons s rest ih =>
      intro cur
      simp only [mergeGo, potentialChunk_nilsep]
      split
      · rw [ih]; simp
      · split
        · rename_i h2
          subst h2
          rw [ih]; simp
        · simp only [List.flatten_cons]
          rw [ih]

theorem mergeGo_count (cs : Int) (sep : List Char) (ch : Char) (hch : ch ∉ sep) :
    ∀ (splits : List (List Char)) (cur : List Char),
    cur.count ch + splits.flatten.count ch ≤ ((mergeGo cs sep cur splits).flatten).count ch := by
  intro splits
  induction splits with
  | nil =>
      intro cur
      simp only [mergeGo]
      split
      · rename_i h; subst h; simp
      · simp
  | cons s rest ih =>
      intro cur
      simp only [mergeGo]
      split
      · have h1 := ih (potentialChunk sep cur s)
        have h2 := potentialChunk_count sep ch hch cur s
        simp only [List.flatten_cons, List.count_append] at h1 ⊢
        omega
      · split
        · rename_i h2
          subst h2
          have h1 := ih s
          simp only [List.flatten_cons, List.count_append, List.count_nil] at h1 ⊢
          omega
        · have h1 := ih s
          simp only [List.flatten_cons, List.count_append, List.count_nil] at h1 ⊢
          omega

theorem flatten_map_single (t : List Char) : (t.map (fun c => [c])).flatten = t := by
  induction t with
  | nil => rfl
  | cons c rest ih => simp [ih]

theorem goSplit_ne_nil (sep : List Char) :
    ∀ (fuel : Nat) (cur s : List Char), goSplit sep fuel cur s ≠ [] := by
  intro fuel
  induction fuel with
  | zero => intro cur s; simp [goSplit]
  | succ f ih =>
      intro cur s
      cases s with
      | nil => simp [goSplit]
      | cons c rest =>
          simp only [goSplit]
          split
          · simp
          · exact ih _ _

theorem joinSep_cons (sep : List Char) (x : List Char) (l : List (List Char)) (h : l ≠ []) :
    joinSep sep (x :: l) = x ++ sep ++ joinSep sep l := by
  cases l with
  | nil => exact absurd rfl h
  | cons y rest => rfl

theorem joinSep_goSplit (sep : List Char) :
    ∀ (fuel : Nat) (cur s : List Char), joinSep sep (goSplit sep fuel cur s) = cur ++ s := by
  intro fuel
  induction fuel with
  | zero => intro cur s; simp [goSplit, joinSep]
  | succ f ih =>
      intro cur s
      cases s with
      | nil => simp [goSplit, joinSep]
      | cons c rest =>
          simp only [goSplit]
          split
          · rename_i h
            rw [joinSep_cons sep cur _ (goSplit_ne_nil sep f [] _), ih]
            obtain ⟨t2, ht2⟩ := (List.isPrefixOf_iff_prefix.mp h.2)
            rw [← ht2, List.drop_left' (by rfl)]
            simp
          · rw [ih]
            simp

theorem joinSep_count (sep : List Char) (ch : Char) (hch : ch ∉ sep) :
    ∀ l : List (List Char), (joinSep sep l).count ch = l.flatten.count ch := by
  have hsep0 : sep.count ch = 0 := List.count_eq_zero.mpr hch
  intro l
  induction l with
  | nil => rfl
  | cons x rest ih =>
      cases rest with
      | nil => simp [joinSep]
      | cons y rest2 =>
          rw [joinSep_cons sep x _ (by simp)]
          simp only [List.flatten_cons, List.count_append, hsep0, ih]
          omega

theorem joinSep_nilsep : ∀ l : List (List Char), joinSep [] l = l.flatten := by
  intro l
  induction l with
  | nil => rfl
  | cons x rest ih =>
      cases rest with
      | nil => simp [joinSep]
      | cons y rest2 =>
          rw [joinSep_cons [] x _ (by simp), ih]
          simp

theorem hardSplitF_isSome (cs step : Int) (hstep : 1 ≤ step) :
    ∀ (fuel : Nat) (i : Int) (t : List Char), (t.length : Int) - i ≤ fuel →
    (hardSplitF cs step fuel i t).isSome := by
  intro fuel
  induction fuel with
  | zero =>
      intro i t h
      simp only [hardSplitF]
      split
      · rename_i hlt; omega
      · rfl
  | succ f ih =>
      intro i t h
      simp only [hardSplitF]
      split
      · rw [Option.isSome_map']
        exact ih (i + step) t (by push_cast at h ⊢; omega)
      · rfl

theorem jsSlice_length_le (t : List Char) (i cs : Int) (hi : 0 ≤ i) (hcs : 0 ≤ cs) :
    ((jsSlice t i (i + cs)).length : Int) ≤ cs := by
  simp only [jsSlice, List.length_drop, List.length_take]
  have h1 : ¬ i < 0 := by omega
  have h2 : ¬ i + cs < 0 := by omega
  simp only [h1, h2, if_false]
  omega

theorem hardSplitF_bound (cs step : Int) (hcs : 0 ≤ cs) (hstep : 0 ≤ step) :
    ∀ (fuel : Nat) (i : Int) (t : List Char) (r : List (List Char)),
    0 ≤ i → hardSplitF cs step fuel i t = some r → ∀ c ∈ r, (c.length : Int) ≤ cs := by
  intro fuel
  induction fuel with
  | zero =>
      intro i t r _ h c hc
      simp only [hardSplitF] at h
      split at h
      · cases h
      · simp at h; subst h; cases hc
  | succ f ih =>
      intro i t r hi h c hc
      simp only [hardSplitF] at h
      split at h
      · cases hrec : hardSplitF cs step f (i + step) t with
        | none => rw [hrec] at h; cases h
        | some rs =>
            rw [hrec] at h
            simp at h
            subst h
            rcases List.mem_cons.mp hc with h1 | h1
            · subst h1; exact jsSlice_length_le t i cs hi hcs
            · exact ih (i + step) t rs (by omega) hrec c h1
      · simp at h; subst h; cases hc

theorem hardSplitF_cszero_none (c : Char) : ∀ fuel : Nat, hardSplitF 0 0 fuel 0 [c] = none := by
  intro fuel
  induction fuel with
  | zero => rfl
  | succ f ih => simp [hardSplitF, ih]

theorem splitTextF_nil_eq (cs co : Int) (hf : Nat) (t : List Char) :
    splitTextF cs co hf [] t =
      if (t.length : Int) ≤ cs then some [t]
      else hardSplitF cs (cs - co) hf 0 t := rfl

theorem splitTextF_cons_eq (cs co : Int) (hf : Nat) (sep : List Char)
    (rest : List (List Char)) (t : List Char) :
    splitTextF cs co hf (sep :: rest) t =
      if (t.length : Int) ≤ cs then some [t]
      else
        combineResults ((mergeSplits cs sep
            (if sep = [] then t.map (fun c => [c]) else jsSplit sep t)).map
          (fun chunk =>
            if (chunk.length : Int) > cs then splitTextF cs co hf rest chunk
            else some [chunk])) := rfl

/-! The main induction over a separator hierarchy that ends with the
character-level separator.  Because the character level can only produce
chunks of length ≤ chunkSize when chunkSize ≥ 1, recursion below it (and
hence the hard-split fallback) is unreachable, which yields at once
fuel- and overlap-independence, definedness, the length bound, and the
preservation of non-separator characters. -/

theorem endsEmpty_separators : endsEmpty separators := rfl

theorem charLevel_splits_bound (cs : Int) (hcs : 1 ≤ cs) (t : List Char) :
    ∀ chunk ∈ mergeSplits cs [] (t.map fun c => [c]), ¬ ((chunk.length : Int) > cs) := by
  intro chunk hchunk
  have hb := mergeGo_bound cs [] (t.map fun c => [c]) []
    (by
      intro s2 hs2
      obtain ⟨c2, _, h2⟩ := List.mem_map.mp hs2
      subst h2
      simpa using hcs)
    (by simp; omega) chunk hchunk
  omega

theorem splitTextF_charlevel (cs co : Int) (hcs : 1 ≤ cs) (hf : Nat) (t : List Char) :
    splitTextF cs co hf [[]] t =
      if (t.length : Int) ≤ cs then some [t]
      else some (mergeSplits cs [] (t.map fun c => [c])) := by
  rw [splitTextF_cons_eq]
  have hsplits : (if ([] : List Char) = [] then t.map (fun c => [c]) else jsSplit [] t)
      = t.map (fun c => [c]) := by simp
  rw [hsplits]
  split
  · rfl
  · rw [List.map_congr_left
        (fun chunk hchunk => if_neg (charLevel_splits_bound cs hcs t chunk hchunk)),
      combineResults_map_some]

theorem splitTextF_indep (cs : Int) (hcs : 1 ≤ cs) :
    ∀ (seps : List (List Char)), endsEmpty seps →
    ∀ (t : List Char) (co co2 : Int) (hf hf2 : Nat),
    splitTextF cs co hf seps t = splitTextF cs co2 hf2 seps t := by
  intro seps
  induction seps with
  | nil => intro h; exact h.elim
  | cons sep rest ih =>
      intro hend t co co2 hf hf2
      cases rest with
      | nil =>
          have hsep : sep = [] := hend
          subst hsep
          rw [splitTextF_charlevel cs co hcs, splitTextF_charlevel cs co2 hcs]
      | cons s2 rest2 =>
          have hend2 : endsEmpty (s2 :: rest2) := hend
          rw [splitTextF_cons_eq, splitTextF_cons_eq]
          split
          · rfl
          · congr 1
            apply List.map_congr_left
            intro chunk _
            split
            · exact ih hend2 chunk co co2 hf hf2
            · rfl

theorem splitTextF_isSome (cs : Int) (hcs : 1 ≤ cs) :
    ∀ (seps : List (List Char)), endsEmpty seps →
    ∀ (t : List Char) (co : Int) (hf : Nat), (splitTextF cs co hf seps t).isSome := by
  intro seps
  induction seps with
  | nil => intro h; exact h.elim
  | cons sep rest ih =>
      intro hend t co hf
      cases rest with
      | nil =>
          have hsep : sep = [] := hend
          subst hsep
          rw [splitTextF_charlevel cs co hcs]
          split <;> rfl
      | cons s2 rest2 =>
          have hend2 : endsEmpty (s2 :: rest2) := hend
          rw [splitTextF_cons_eq]
          split
          · rfl
          · apply combineResults_isSome
            intro o ho
            obtain ⟨chunk, _, h2⟩ := List.mem_map.mp ho
            subst h2
            split
            · exact ih hend2 chunk co hf
            · rfl

theorem splitTextF_bound (cs : Int) (hcs : 1 ≤ cs) :
    ∀ (seps : List (List Char)), endsEmpty seps →
    ∀ (t : List Char) (co : Int) (hf : Nat) (r : List (List Char)),
    splitTextF cs co hf seps t = some r → ∀ c ∈ r, (c.length : Int) ≤ cs := by
  intro seps
  induction seps with
  | nil => intro h; exact h.elim
  | cons sep rest ih =>
      intro hend t co hf r hr c hc
      cases rest with
      | nil =>
          have hsep : sep = [] := hend
          subst hsep
          rw [splitTextF_charlevel cs co hcs] at hr
          split at hr
          · rename_i hle
            simp at hr
            subst hr
            rw [List.mem_singleton] at hc
            subst hc
            exact hle
          · simp at hr
            subst hr
            have := charLevel_splits_bound cs hcs t c hc
            omega
      | cons s2 rest2 =>
          have hend2 : endsEmpty (s2 :: rest2) := hend
          rw [splitTextF_cons_eq] at hr
          split at hr
          · rename_i hle
            simp at hr
            subst hr
            rw [List.mem_singleton] at hc
            subst hc
            exact hle
          · obtain ⟨xs, hxs1, hxs2⟩ := combineResults_mem c _ r hr hc
            obtain ⟨chunk, _, h2⟩ := List.mem_map.mp hxs1
            by_cases hbig : (chunk.length : Int) > cs
            · rw [if_pos hbig] at h2
              exact ih hend2 chunk co hf xs h2 c hxs2
            · rw [if_neg hbig] at h2
              have hxs : xs = [chunk] := by
                cases h2; rfl
              subst hxs
              rw [List.mem_singleton] at hxs2
              subst hxs2
              omega

theorem splitTextF_count (cs : Int) (hcs : 1 ≤ cs) (ch : Char) :
    ∀ (seps : List (List Char)), endsEmpty seps → ch ∉ seps.flatten →
    ∀ (t : List Char) (co : Int) (hf : Nat) (r : List (List Char)),
    splitTextF cs co hf seps t = some r → t.count ch ≤ r.flatten.count ch := by
  intro seps
  induction seps with
  | nil => intro h; exact h.elim
  | cons sep rest ih =>
      intro hend hch t co hf r hr
      have hchsep : ch ∉ sep := by
        intro hmem
        apply hch
        rw [List.flatten_cons]
        exact List.mem_append_left _ hmem
      cases rest with
      | nil =>
          have hsep : sep = [] := hend
          subst hsep
          rw [splitTextF_charlevel cs co hcs] at hr
          split at hr
          · simp at hr
            subst hr
            simp
          · simp at hr
            subst hr
            simp only [mergeSplits] at *
            rw [mergeGo_flatten_nilsep, flatten_map_single]
            simp
      | cons s2 rest2 =>
          have hend2 : endsEmpty (s2 :: rest2) := hend
          have hch2 : ch ∉ (s2 :: rest2).flatten := by
            intro hmem
            apply hch
            rw [List.flatten_cons]
            exact List.mem_append_right _ hmem
          rw [splitTextF_cons_eq] at hr
          split at hr
          · simp at hr
            subst hr
            simp
          · set splits := if sep = [] then t.map (fun c => [c]) else jsSplit sep t with hsplits
            have hjoin : joinSep sep splits = t := by
              rw [hsplits]
              split
              · rename_i hsep
                subst hsep
                rw [joinSep_nilsep, flatten_map_single]
              · simp only [jsSplit]
                simpa using joinSep_goSplit sep t.length [] t
            have hstep1 : t.count ch = splits.flatten.count ch := by
              rw [← hjoin, joinSep_count sep ch hchsep]
            have hstep2 : splits.flatten.count ch
                ≤ (mergeSplits cs sep splits).flatten.count ch := by
              simpa using mergeGo_count cs sep ch hchsep splits []
            have hstep3 : (mergeSplits cs sep splits).flatten.count ch
                ≤ r.flatten.count ch := by
              apply combineResults_count ch _ (mergeSplits cs sep splits) r hr
              intro c2 _ rc hrc
              by_cases hbig : (c2.length : Int) > cs
              · rw [if_pos hbig] at hrc
                exact ih hend2 hch2 c2 co hf rc hrc
              · rw [if_neg hbig] at hrc
                cases hrc
                simp
            omega

/-! Lemmas about the retriever. -/

theorem dedupGo_mem (x : List Char) :
    ∀ (l seen : List (List Char)), x ∈ dedupGo seen l ↔ x ∈ l ∧ x ∉ seen := by
  intro l
  induction l with
  | nil => intro seen; simp [dedupGo]
  | cons y rest ih =>
      intro seen
      simp only [dedupGo]
      split
      · rename_i hy
        rw [List.elem_iff] at hy
        rw [ih seen, List.mem_cons]
        constructor
        · rintro ⟨h1, h2⟩
          exact ⟨Or.inr h1, h2⟩
        · rintro ⟨h1, h2⟩
          rcases h1 with h3 | h3
          · subst h3; exact absurd hy h2
          · exact ⟨h3, h2⟩
      · rename_i hy
        rw [List.elem_iff] at hy
        rw [List.mem_cons, List.mem_cons]
        constructor
        · rintro (h1 | h1)
          · subst h1; exact ⟨Or.inl rfl, hy⟩
          · have := (ih (y :: seen)).mp h1
            refine ⟨Or.inr this.1, fun hmem => this.2 (by simp [hmem])⟩
        · rintro ⟨h1 | h1, h2⟩
          · subst h1; exact Or.inl rfl
          · by_cases hxy : x = y
            · exact Or.inl hxy
            · exact Or.inr ((ih (y :: seen)).mpr ⟨h1, by simp [h2, hxy]⟩)

theorem dedupGo_nodup : ∀ (l seen : List (List Char)), (dedupGo seen l).Nodup := by
  intro l
  induction l with
  | nil => intro seen; simp [dedupGo]
  | cons y rest ih =>
      intro seen
      simp only [dedupGo]
      split
      · exact ih seen
      · refine List.nodup_cons.mpr ⟨?_, ih (y :: seen)⟩
        intro hmem
        have := (dedupGo_mem y rest (y :: seen)).mp hmem
        exact this.2 (by simp)

theorem tokenize_nodup (t : List Char) : (tokenize t).Nodup :=
  dedupGo_nodup _ []

theorem tokenize_empty : tokenize [] = [] := rfl

theorem overlap_card (q c : List (List Char)) (hq : q.Nodup) :
    (q.filter (fun qt => c.contains qt)).length = (q.toFinset ∩ c.toFinset).card := by
  have h1 : (q.filter (fun qt => c.contains qt)).Nodup := hq.filter _
  rw [← List.toFinset_card_of_nodup h1, List.toFinset_filter]
  congr 1
  ext x
  simp [List.elem_iff]

theorem calculateScore_eq_scoreSpec (q c : List Char) :
    calculateScore (tokenize q) (tokenize c) = scoreSpec q c := by
  have hq := tokenize_nodup q
  have hc := tokenize_nodup c
  simp only [calculateScore, scoreSpec]
  rw [overlap_card (tokenize q) (tokenize c) hq,
    ← List.toFinset_card_of_nodup hq, ← List.toFinset_card_of_nodup hc]

theorem calculateScore_nonneg (q c : List (List Char)) : 0 ≤ calculateScore q c := by
  unfold calculateScore
  apply div_nonneg (by positivity)
  split
  · norm_num
  · positivity

theorem calculateScore_nil_nil : calculateScore [] [] = 0 := by
  simp [calculateScore]

theorem mem_insertScored (x y : DocumentChunk × Rat) :
    ∀ l, y ∈ insertScored x l ↔ y = x ∨ y ∈ l := by
  intro l
  induction l with
  | nil => simp [insertScored]
  | cons z rest ih =>
      simp only [insertScored]
      split
      · simp [List.mem_cons]
      · rw [List.mem_cons, ih, List.mem_cons]
        tauto

theorem insertScored_length (x : DocumentChunk × Rat) :
    ∀ l, (insertScored x l).length = l.length + 1 := by
  intro l
  induction l with
  | nil => rfl
  | cons z rest ih =>
      simp only [insertScored]
      split
      · simp
      · simp [ih]

theorem sortScored_length : ∀ l, (sortScored l).length = l.length := by
  intro l
  induction l with
  | nil => rfl
  | cons x rest ih => simp [sortScored, insertScored_length, ih]

theorem insertScored_pairwise (x : DocumentChunk × Rat) :
    ∀ l, l.Pairwise (fun a b => b.2 ≤ a.2) →
    (insertScored x l).Pairwise (fun a b => b.2 ≤ a.2) := by
  intro l
  induction l with
  | nil => intro _; simp [insertScored]
  | cons z rest ih =>
      intro hp
      rw [List.pairwise_cons] at hp
      simp only [insertScored]
      split
      · rename_i hle
        rw [List.pairwise_cons]
        refine ⟨?_, List.pairwise_cons.mpr hp⟩
        intro b hb
        rcases List.mem_cons.mp hb with h1 | h1
        · subst h1; exact hle
        · exact le_trans (hp.1 b h1) hle
      · rename_i hle
        rw [List.pairwise_cons]
        refine ⟨?_, ih hp.2⟩
        intro b hb
        rcases (mem_insertScored x b rest).mp hb with h1 | h1
        · subst h1; exact le_of_lt (lt_of_not_le hle)
        · exact hp.1 b h1

theorem sortScored_pairwise : ∀ l, (sortScored l).Pairwise (fun a b => b.2 ≤ a.2) := by
  intro l
  induction l with
  | nil => simp [sortScored]
  | cons x rest ih => exact insertScored_pairwise x _ ih

theorem mem_sortScored (y : DocumentChunk × Rat) :
    ∀ l, y ∈ sortScored l ↔ y ∈ l := by
  intro l
  induction l with
  | nil => simp [sortScored]
  | cons x rest ih =>
      simp only [sortScored]
      rw [mem_insertScored, ih, List.mem_cons]

theorem insertScored_filter (x : DocumentChunk × Rat) (s : Rat) :
    ∀ l, (insertScored x l).filter (fun p => decide (p.2 = s)) =
      if x.2 = s then x :: l.filter (fun p => decide (p.2 = s))
      else l.filter (fun p => decide (p.2 = s)) := by
  intro l
  induction l with
  | nil =>
      simp only [insertScored]
      by_cases hx : x.2 = s
      · simp [List.filter, hx]
      · simp [List.filter, hx]
  | cons z rest ih =>
      simp only [insertScored]
      split
      · rename_i hle
        by_cases hx : x.2 = s
        · simp [List.filter, hx]
        · simp [List.filter, hx]
      · rename_i hgt
        have hzx : x.2 < z.2 := lt_of_not_le hgt
        by_cases hx : x.2 = s
        · have hz : ¬ (z.2 = s) := by
            intro h
            rw [h, hx] at hzx
            exact lt_irrefl s hzx
          simp [List.filter, hz, ih, hx]
        · simp [List.filter, ih, hx]

theorem sortScored_filter (s : Rat) :
    ∀ l, (sortScored l).filter (fun p => decide (p.2 = s)) =
      l.filter (fun p => decide (p.2 = s)) := by
  intro l
  induction l with
  | nil => rfl
  | cons x rest ih =>
      simp only [sortScored]
      rw [insertScored_filter, ih]
      by_cases hx : x.2 = s
      · simp [List.filter, hx]
      · simp [List.filter, hx]

theorem sortScored_all_zero :
    ∀ l, (∀ p ∈ l, p.2 = (0 : Rat)) → sortScored l = l := by
  intro l
  induction l with
  | nil => intro _; rfl
  | cons x rest ih =>
      intro hall
      simp only [sortScored]
      rw [ih (fun p hp => hall p (by simp [hp]))]
      cases rest with
      | nil => rfl
      | cons y rest2 =>
          have hx0 : x.2 = 0 := hall x (by simp)
          have hy0 : y.2 = 0 := hall y (by simp)
          simp only [insertScored]
          rw [if_pos (le_of_eq (hy0.trans hx0.symm))]

theorem scoredList_snd (q : List Char) (chunks : List DocumentChunk) :
    ∀ p ∈ scoredList q chunks, p.2 = chunkScore q p.1 := by
  intro p hp
  obtain ⟨c, _, h⟩ := List.mem_map.mp hp
  rw [← h]

theorem chunkScore_empty_query (c : DocumentChunk) : chunkScore [] c = 0 := by
  unfold chunkScore
  rw [tokenize_empty]
  unfold calculateScore
  simp

theorem retrieve_formula (q : List Char) (chunks : List DocumentChunk) (k : Nat) :
    retrieveRelevantChunks q chunks k
      = ((sortScored (scoredList q chunks)).take k).map Prod.fst := by
  unfold retrieveRelevantChunks
  split
  · rename_i h
    have hc : chunks = [] := List.eq_nil_of_length_eq_zero h
    subst hc
    simp [scoredList, sortScored]
  · rfl

theorem retrieve_length (q : List Char) (chunks : List DocumentChunk) (k : Nat) :
    (retrieveRelevantChunks q chunks k).length = min k chunks.length := by
  rw [retrieve_formula]
  simp [sortScored_length, scoredList]

theorem retrieve_nil (q : List Char) (k : Nat) : retrieveRelevantChunks q [] k = [] := rfl

theorem retrieve_zero (q : List Char) (chunks : List DocumentChunk) :
    retrieveRelevantChunks q chunks 0 = [] := by
  rw [retrieve_formula]
  simp

theorem retrieve_empty_query (chunks : List DocumentChunk) (k : Nat) :
    retrieveRelevantChunks [] chunks k = chunks.take k := by
  rw [retrieve_formula]
  have hall : ∀ p ∈ scoredList [] chunks, p.2 = 0 := fun p hp => by
    rw [scoredList_snd [] chunks p hp, chunkScore_empty_query]
  rw [sortScored_all_zero _ hall]
  simp only [scoredList, ← List.map_take, List.map_map]
  have hid : (Prod.fst ∘ fun chunk : DocumentChunk => (chunk, chunkScore [] chunk)) = id := rfl
  rw [hid, List.map_id]

theorem retrieve_pairwise (q : List Char) (chunks : List DocumentChunk) (k : Nat) :
    (retrieveRelevantChunks q chunks k).Pairwise
      (fun a b => chunkScore q b ≤ chunkScore q a) := by
  rw [retrieve_formula]
  have hsorted := sortScored_pairwise (scoredList q chunks)
  have htake : ((sortScored (scoredList q chunks)).take k).Pairwise
      (fun a b => b.2 ≤ a.2) :=
    hsorted.sublist (List.take_sublist k _)
  rw [List.pairwise_map]
  apply htake.imp_of_mem
  intro a b ha hb hr
  have ha2 : a ∈ scoredList q chunks :=
    (mem_sortScored a _).mp (List.mem_of_mem_take ha)
  have hb2 : b ∈ scoredList q chunks :=
    (mem_sortScored b _).mp (List.mem_of_mem_take hb)
  rw [← scoredList_snd q chunks a ha2, ← scoredList_snd q chunks b hb2]
  exact hr

/-! Lemmas about createChunksFromDoc. -/

theorem chunksFromRaw_length (docId : String) :
    ∀ (raws : List (List Char)) (idx : Nat),
    (chunksFromRaw docId idx raws).length = raws.length := by
  intro raws
  induction raws with
  | nil => intro idx; rfl
  | cons t rest ih => intro idx; simp [chunksFromRaw, ih]

theorem chunksFromRaw_get (docId : String) :
    ∀ (raws : List (List Char)) (idx i : Nat)
      (hi : i < (chunksFromRaw docId idx raws).length) (hi2 : i < raws.length),
    (chunksFromRaw docId idx raws).get ⟨i, hi⟩ =
      { id := docId ++ "-chunk-" ++ toString (idx + i)
        sourceId := docId
        content := jsTrim (raws.get ⟨i, hi2⟩)
        startIndex := idx + i
        endIndex := idx + i + 1 } := by
  intro raws
  induction raws with
  | nil => intro idx i hi hi2; exact absurd hi2 (Nat.not_lt_zero i)
  | cons t rest ih =>
      intro idx i hi hi2
      cases i with
      | zero => simp [chunksFromRaw]
      | succ j =>
          have hj : j < (chunksFromRaw docId (idx + 1) rest).length := by
            rw [chunksFromRaw_length]
            exact Nat.lt_of_succ_lt_succ hi2
          have hj2 : j < rest.length := Nat.lt_of_succ_lt_succ hi2
          have hstep : (chunksFromRaw docId idx (t :: rest)).get ⟨j + 1, hi⟩
              = (chunksFromRaw docId (idx + 1) rest).get ⟨j, hj⟩ := rfl
          rw [hstep, ih (idx + 1) j hj hj2]
          have harith : idx + 1 + j = idx + (j + 1) := by omega
          simp [harith]

/-! The divergence of the hard-split loop at chunkSize 0: the source loop
advances by chunkSize - chunkOverlap = 0 each iteration, so the fuelled
model returns none at every fuel. -/

theorem splitText_cszero_nil_single (hf : Nat) (c : Char) :
    splitTextF 0 0 hf [] [c] = none := by
  rw [splitTextF_nil_eq, if_neg (by norm_num)]
  have h00 : (0 : Int) - 0 = 0 := by norm_num
  rw [h00]
  exact hardSplitF_cszero_none c hf

theorem splitText_cszero_char (hf : Nat) :
    splitTextF 0 0 hf [[]] ['a', 'b'] = none := by
  rw [splitTextF_cons_eq, if_neg (by norm_num)]
  have hsplits : (if ([] : List Char) = []
      then (['a', 'b'] : List Char).map (fun c => [c]) else jsSplit [] ['a', 'b'])
      = [['a'], ['b']] := by decide
  rw [hsplits]
  have hm : mergeSplits 0 [] [['a'], ['b']] = [['a'], ['b']] := by decide
  rw [hm]
  simp [splitText_cszero_nil_single hf, combineResults]

theorem splitText_cszero_level (hf : Nat) (sep : List Char) (rest : List (List Char))
    (hsepne : sep ≠ []) (hsep : jsSplit sep ['a', 'b'] = [['a', 'b']])
    (hrest : splitTextF 0 0 hf rest ['a', 'b'] = none) :
    splitTextF 0 0 hf (sep :: rest) ['a', 'b'] = none := by
  rw [splitTextF_cons_eq, if_neg (by norm_num), if_neg hsepne, hsep]
  have hm : mergeSplits 0 sep [['a', 'b']] = [['a', 'b']] := by
    simp [mergeSplits, mergeGo, potentialChunk_nilcur]
  rw [hm]
  simp [hrest, combineResults]

theorem recursiveCharacterSplit_cszero (hf : Nat) :
    recursiveCharacterSplit hf ['a', 'b'] 0 0 = none := by
  unfold recursiveCharacterSplit separators
  apply splitText_cszero_level hf _ _ (by simp) (by decide)
  apply splitText_cszero_level hf _ _ (by simp) (by decide)
  apply splitText_cszero_level hf _ _ (by simp) (by decide)
  exact splitText_cszero_char hf

/-! The claims. -/

/-- C1: for every input text and every valid configuration (chunkSize > 0,
0 ≤ chunkOverlap < chunkSize), every chunk in the sequence returned by
recursiveCharacterSplit has length ≤ chunkSize, and likewise every chunk
produced by the hard-split fallback loop is never longer than chunkSize. -/
theorem claim_C1 (text : List Char) (cs co : Int) (hf : Nat)
    (r : List (List Char)) (c : List Char)
    (h1 : 0 < cs) (h2 : 0 ≤ co) (h3 : co < cs) :
    (recursiveCharacterSplit hf text cs co = some r → c ∈ r → (c.length : Int) ≤ cs) ∧
    (∀ (i : Int) (t : List Char) (r2 : List (List Char)), 0 ≤ i →
      hardSplitF cs (cs - co) hf i t = some r2 → ∀ c2 ∈ r2, (c2.length : Int) ≤ cs) := by
  constructor
  · intro hsome hmem
    exact splitTextF_bound cs (by omega) separators endsEmpty_separators text co hf r hsome c hmem
  · intro i t r2 hi hsome
    exact hardSplitF_bound cs (cs - co) (by omega) (by omega) hf i t r2 hi hsome

/-- Witness for C1 at text "abcde", chunkSize 3, chunkOverlap 1: the chunk
"e" of the returned sequence ["ab", "cd", "e"] has length ≤ 3. -/
theorem claim_C1_witness : ((['e'] : List Char).length : Int) ≤ 3 :=
  (claim_C1 ['a', 'b', 'c', 'd', 'e'] 3 1 0 [['a', 'b'], ['c', 'd'], ['e']] ['e']
    (by decide) (by decide) (by decide)).1 (by decide) (by decide)

/-- C2: recursiveCharacterSplit terminates for every input string and every
valid configuration (including chunkSize = 1): the fuelled model is defined
at every fuel (the recursion over the separator hierarchy is structural and
the hard-split fallback is never entered), and the hard-split loop itself
terminates whenever the step chunkSize - chunkOverlap is ≥ 1, which the
precondition enforces, within fuel equal to the input length. -/
theorem claim_C2 (text : List Char) (cs co : Int) (hf fuel : Nat)
    (h1 : 0 < cs) (h2 : 0 ≤ co) (h3 : co < cs) (hfuel : text.length ≤ fuel) :
    (recursiveCharacterSplit hf text cs co).isSome = true ∧
    (hardSplitF cs (cs - co) fuel 0 text).isSome = true := by
  constructor
  · exact splitTextF_isSome cs (by omega) separators endsEmpty_separators text co hf
  · exact hardSplitF_isSome cs (cs - co) (by omega) fuel 0 text (by omega)

/-- Witness for C2 at text "abc" with chunkSize 1, chunkOverlap 0. -/
theorem claim_C2_witness :
    (recursiveCharacterSplit 0 ['a', 'b', 'c'] 1 0).isSome = true ∧
    (hardSplitF 1 (1 - 0) 3 0 ['a', 'b', 'c']).isSome = true :=
  claim_C2 ['a', 'b', 'c'] 1 0 0 3 (by decide) (by decide) (by decide) (by decide)

/-- C3 counterexample: the claim says an invalid configuration (here
chunkOverlap 10 ≥ chunkSize 5) is rejected at the call boundary with an
InvalidConfiguration condition; the code has no validation at all and
returns an ordinary result for this invalid configuration. -/
theorem claim_C3_counterexample :
    recursiveCharacterSplit 0 ['a', 'b', 'c', 'd', 'e', 'f', 'g', 'h'] 5 10
      = some [['a', 'b', 'c', 'd'], ['e', 'f', 'g', 'h']] := by decide

/-- C3 amended: recursiveCharacterSplit performs no configuration validation.
For any chunkSize ≥ 1 it returns a defined result for every chunkOverlap,
valid or not (the overlap-dependent hard-split fallback is unreachable);
for chunkSize 0 with overlap 0 the hard-split loop has step 0 and never
terminates (the fuelled model returns none at every fuel, e.g. on "ab"). -/
theorem claim_C3 (text : List Char) (cs co : Int) (hf : Nat) (hcs : 1 ≤ cs) :
    (recursiveCharacterSplit hf text cs co).isSome = true ∧
    recursiveCharacterSplit hf ['a', 'b'] 0 0 = none := by
  constructor
  · exact splitTextF_isSome cs hcs separators endsEmpty_separators text co hf
  · exact recursiveCharacterSplit_cszero hf

/-- Witness for C3 (amended) at text "xy", chunkSize 1, chunkOverlap 5. -/
theorem claim_C3_witness :
    (recursiveCharacterSplit 2 ['x', 'y'] 1 5).isSome = true ∧
    recursiveCharacterSplit 2 ['a', 'b'] 0 0 = none :=
  claim_C3 ['x', 'y'] 1 5 2 (by decide)

set_option maxRecDepth 200000 in
/-- C4 counterexample: on 1000 identical characters with chunkSize 100 and
chunkOverlap 0 the claim predicts exactly 10 chunks of length exactly 100;
the code does not return that (the greedy accumulator flushes strictly
below chunkSize, so chunks top out at length 99). -/
theorem claim_C4_counterexample :
    ¬ ((recursiveCharacterSplit 0 (List.replicate 1000 'a') 100 0).map
        (fun r => r.map List.length) = some (List.replicate 10 100)) := by decide

set_option maxRecDepth 200000 in
/-- C4 amended: on 1000 identical non-separator characters with
chunkSize 100 and chunkOverlap 0, recursiveCharacterSplit returns exactly
11 chunks: ten of length 99 followed by one of length 10 (the greedy
reassembly accepts a chunk only while its length stays strictly below
chunkSize). -/
theorem claim_C4 :
    (recursiveCharacterSplit 0 (List.replicate 1000 'a') 100 0).map
        (fun r => r.map List.length) = some (List.replicate 10 99 ++ [10]) := by decide

/-- C5: the retriever's score is exactly the Jaccard-style quotient
|Q ∩ C| / (|Q| + |C| - |Q ∩ C|) over the token sets produced by tokenize
(lower-case, strip non-word non-space characters, split on whitespace runs,
drop tokens of length ≤ 2, de-duplicate), with divisor 1 substituted when
the denominator would be 0, so that the score of two empty token sets is 0,
and the score is always non-negative. -/
theorem claim_C5 (query chunk : List Char) :
    calculateScore (tokenize query) (tokenize chunk) = scoreSpec query chunk ∧
    0 ≤ calculateScore (tokenize query) (tokenize chunk) ∧
    calculateScore [] [] = 0 :=
  ⟨calculateScore_eq_scoreSpec query chunk,
   calculateScore_nonneg (tokenize query) (tokenize chunk),
   calculateScore_nil_nil⟩

/-- C6: retrieveRelevantChunks returns the topK prefix of the stable
descending sort of the scored chunks; the returned sequence is ordered by
non-increasing score; the sort is stable (the subsequence of entries at any
fixed score is exactly the original subsequence at that score, preserving
input order among ties); and with an empty query and topK = 3 the first 3
input chunks are returned in original order, every chunk scoring 0. -/
theorem claim_C6 (query : List Char) (chunks : List DocumentChunk) (topK : Nat)
    (s : Rat) (c : DocumentChunk) :
    retrieveRelevantChunks query chunks topK
        = ((sortScored (scoredList query chunks)).take topK).map Prod.fst ∧
    (retrieveRelevantChunks query chunks topK).Pairwise
        (fun a b => chunkScore query b ≤ chunkScore query a) ∧
    (sortScored (scoredList query chunks)).Pairwise (fun a b => b.2 ≤ a.2) ∧
    (sortScored (scoredList query chunks)).filter (fun p => decide (p.2 = s))
        = (scoredList query chunks).filter (fun p => decide (p.2 = s)) ∧
    retrieveRelevantChunks [] chunks 3 = chunks.take 3 ∧
    chunkScore [] c = 0 :=
  ⟨retrieve_formula query chunks topK,
   retrieve_pairwise query chunks topK,
   sortScored_pairwise (scoredList query chunks),
   sortScored_filter s (scoredList query chunks),
   retrieve_empty_query chunks 3,
   chunkScore_empty_query c⟩

/-- C7: retrieveRelevantChunks is total: on an empty collection it returns
the empty sequence for every query and topK; with topK = 0 it returns the
empty sequence; and in general the result length is
min(topK, number of chunks). -/
theorem claim_C7 (query : List Char) (chunks : List DocumentChunk) (topK : Nat) :
    retrieveRelevantChunks query [] topK = [] ∧
    retrieveRelevantChunks query chunks 0 = [] ∧
    (retrieveRelevantChunks query chunks topK).length = min topK chunks.length :=
  ⟨retrieve_nil query topK, retrieve_zero query chunks,
   retrieve_length query chunks topK⟩

/-- C8 counterexample: the claim says every chunk whose text is empty after
trimming is dropped, so no returned chunk has empty content; but
createChunksFromDoc on a whitespace-only document returns a single chunk
whose content is empty. -/
theorem claim_C8_counterexample :
    createChunksFromDoc "d" [' ', ' ', ' ']
      = some [{ id := "d-chunk-0", sourceId := "d", content := [],
                startIndex := 0, endIndex := 1 }] := by decide

/-- C8 amended: createChunksFromDoc splits the content with the fixed
defaults chunkSize 500 and overlap 50, trims each resulting piece, and
assigns sequential identifiers docId-chunk-index; it does NOT drop chunks
whose text is empty after trimming (a chunk is produced for every raw
piece, content trimmed, ids sequential from 0). -/
theorem claim_C8 (docId : String) (content : List Char)
    (r : List DocumentChunk) (raws : List (List Char))
    (hsplit : recursiveCharacterSplit 0 content 500 50 = some raws)
    (h : createChunksFromDoc docId content = some r) :
    r.length = raws.length ∧
    (∀ (i : Nat) (hi : i < r.length) (hi2 : i < raws.length),
      (r.get ⟨i, hi⟩).id = docId ++ "-chunk-" ++ toString i ∧
      (r.get ⟨i, hi⟩).sourceId = docId ∧
      (r.get ⟨i, hi⟩).content = jsTrim (raws.get ⟨i, hi2⟩)) := by
  have hr : r = chunksFromRaw docId 0 raws := by
    unfold createChunksFromDoc at h
    rw [hsplit] at h
    simp at h
    exact h.symm
  subst hr
  refine ⟨chunksFromRaw_length docId raws 0, ?_⟩
  intro i hi hi2
  rw [chunksFromRaw_get docId raws 0 i hi hi2]
  refine ⟨by simp, rfl, rfl⟩

/-- Witness for C8 (amended) on document "d" with whitespace-only content. -/
theorem claim_C8_witness :
    createChunksFromDoc "d" [' ', ' ', ' ']
        = some [{ id := "d-chunk-0", sourceId := "d", content := [],
                  startIndex := 0, endIndex := 1 }] ∧
    ([{ id := "d-chunk-0", sourceId := "d", content := [],
        startIndex := 0, endIndex := 1 }] : List DocumentChunk).length
      = ([[' ', ' ', ' ']] : List (List Char)).length :=
  ⟨by decide,
   (claim_C8 "d" [' ', ' ', ' ']
      [{ id := "d-chunk-0", sourceId := "d", content := [], startIndex := 0, endIndex := 1 }]
      [[' ', ' ', ' ']] (by decide) (by decide)).1⟩

/-- C9 counterexample: the claim says the chunks, concatenated in order with
the separators reinserted at the chunk boundaries, contain every character
of the input at least once.  On input "\n\nabc" with chunkSize 4 and
chunkOverlap 0 the result is the single chunk "abc": there is no chunk
boundary at which anything could be reinserted, and the newline characters
of the input appear in no chunk, so they are lost. -/
theorem claim_C9_counterexample :
    recursiveCharacterSplit 0 ['\n', '\n', 'a', 'b', 'c'] 4 0 = some [['a', 'b', 'c']] ∧
    '\n' ∈ (['\n', '\n', 'a', 'b', 'c'] : List Char) ∧
    '\n' ∉ (['a', 'b', 'c'] : List Char) :=
  ⟨by decide, by decide, by decide⟩

/-- C9 amended: for every valid configuration, every character of the input
other than the separator characters (the newline and the space) occurs in
the plain concatenation of the returned chunks at least as many times as in
the input; separator characters adjacent to empty split segments may be
dropped entirely. -/
theorem claim_C9 (text : List Char) (cs co : Int) (hf : Nat)
    (r : List (List Char)) (ch : Char) (hcs : 1 ≤ cs)
    (hsplit : recursiveCharacterSplit hf text cs co = some r)
    (h1 : ch ≠ '\n') (h2 : ch ≠ ' ') :
    text.count ch ≤ r.flatten.count ch := by
  apply splitTextF_count cs hcs ch separators endsEmpty_separators ?_ text co hf r hsplit
  simp [separators, h1, h2]

/-- Witness for C9 (amended) at text "ab\ncd", chunkSize 2, chunkOverlap 0,
character a. -/
theorem claim_C9_witness :
    (['a', 'b', '\n', 'c', 'd'] : List Char).count 'a'
      ≤ ([['a', 'b'], ['c', 'd']] : List (List Char)).flatten.count 'a' :=
  claim_C9 ['a', 'b', '\n', 'c', 'd'] 2 0 0 [['a', 'b'], ['c', 'd']] 'a'
    (by decide) (by decide) (by decide) (by decide)

/-- C10: for every chunkSize ≥ 1 the hard-split fallback is never executed —
the character-level separator already produces only chunks within the bound —
so the result of recursiveCharacterSplit does not depend on the fuel of the
fallback loop nor on chunkOverlap at all: any two overlap values (and fuels)
give equal, defined results. -/
theorem claim_C10 (text : List Char) (cs o1 o2 : Int) (h1 h2 : Nat) (hcs : 1 ≤ cs) :
    recursiveCharacterSplit h1 text cs o1 = recursiveCharacterSplit h2 text cs o2 ∧
    (recursiveCharacterSplit h1 text cs o1).isSome = true :=
  ⟨splitTextF_indep cs hcs separators endsEmpty_separators text o1 o2 h1 h2,
   splitTextF_isSome cs hcs separators endsEmpty_separators text o1 h1⟩

/-- Witness for C10 at text "abcd", chunkSize 2, overlaps 0 and 100, fuels
0 and 7. -/
theorem claim_C10_witness :
    recursiveCharacterSplit 0 ['a', 'b', 'c', 'd'] 2 0
        = recursiveCharacterSplit 7 ['a', 'b', 'c', 'd'] 2 100 ∧
    (recursiveCharacterSplit 0 ['a', 'b', 'c', 'd'] 2 0).isSome = true :=
  claim_C10 ['a', 'b', 'c', 'd'] 2 0 100 0 7 (by decide)

end RagCore
